import Mathlib

/-!
Verification of the sudoku engine in `src/services/sudokuService.ts`.

The board type `Board = (number | null)[][]` is embedded as
`List (List (Option ℕ))`; reads go through `getCell`, which yields `none`
out of range (matching the behaviour of the JS scans, which only ever read
in-range indices on well-formed 9×9 boards).  In-place mutation is embedded
as explicit state passing, and the global `Math.random()` source as a stream
`rands : ℕ → ℕ` together with a threaded counter of consumed draws; a draw
`Math.floor(Math.random() * n)` is embedded as `rands k % n`.
-/

namespace Sudoku

abbrev Board : Type := List (List (Option ℕ))

/-- Read of `board[r][c]`; `none` out of range. -/
def getCell (b : Board) (r c : ℕ) : Option ℕ :=
  (b.getD r []).getD c none

/-- Write of `board[r][c] = v`, embedded functionally. -/
def setCell (b : Board) (r c : ℕ) (v : Option ℕ) : Board :=
  b.set r ((b.getD r []).set c v)

/-- The board is a well-formed 9×9 grid. -/
def boardWF (b : Board) : Prop :=
  b.length = 9 ∧ ∀ row ∈ b, row.length = 9

/-- Every stored value is in 1..9 (the data model's value range). -/
def validVals (b : Board) : Prop :=
  ∀ r < 9, ∀ c < 9, ∀ v, getCell b r c = some v → 1 ≤ v ∧ v ≤ 9

/-- All 81 cell coordinates in row-major order. -/
def allCells : List (ℕ × ℕ) :=
  (List.range 9).flatMap fun r => (List.range 9).map fun c => (r, c)

/-- Number of empty cells. -/
def emptyCount (b : Board) : ℕ :=
  allCells.countP fun p => getCell b p.1 p.2 == none

/-- Number of filled cells. -/
def filledCount (b : Board) : ℕ :=
  allCells.countP fun p => !(getCell b p.1 p.2 == none)

/-- Every in-range cell is filled. -/
def fullBoard (b : Board) : Prop :=
  ∀ r < 9, ∀ c < 9, getCell b r c ≠ none

/-- The two cells lie in the same 3×3 box. -/
def sameBox (r c r' c' : ℕ) : Prop :=
  r / 3 = r' / 3 ∧ c / 3 = c' / 3

/-- The candidate value occurs somewhere (target cell included) in the row,
column or box of the target. -/
def occursInUnits (b : Board) (row col num : ℕ) : Prop :=
  ∃ r < 9, ∃ c < 9, getCell b r c = some num ∧
    (r = row ∨ c = col ∨ sameBox r c row col)

/-- The candidate value occurs at a cell other than the target in the row,
column or box of the target. -/
def occursElsewhere (b : Board) (row col num : ℕ) : Prop :=
  ∃ r < 9, ∃ c < 9, (r, c) ≠ (row, col) ∧ getCell b r c = some num ∧
    (r = row ∨ c = col ∨ sameBox r c row col)

/-- The cell is filled and its value also appears at another cell of its
row, column or box. -/
def conflictSpec (b : Board) (r c : ℕ) : Prop :=
  getCell b r c ≠ none ∧
    ∃ r' < 9, ∃ c' < 9, (r', c') ≠ (r, c) ∧ getCell b r' c' = getCell b r c ∧
      (r' = r ∨ c' = c ∨ sameBox r' c' r c)

/-- No unit of the grid contains a duplicated value. -/
def validBoard (b : Board) : Prop :=
  ∀ r < 9, ∀ c < 9, ¬ conflictSpec b r c

/-- Embedding of `isValidPlacement` (sudokuService.ts, lines 7–31): scans the
whole row, whole column and whole box — the target cell is not excluded. -/
def isValidPlacement (b : Board) (row col num : ℕ) : Bool :=
  ((List.range 9).all fun x => !(getCell b row x == some num)) &&
  ((List.range 9).all fun x => !(getCell b x col == some num)) &&
  ((List.range 3).all fun i => (List.range 3).all fun j =>
    !(getCell b (i + (row - row % 3)) (j + (col - col % 3)) == some num))

/-- Embedding of `findEmptyCell` (lines 34–43): first `null` cell in
row-major order. -/
def findEmptyCell (b : Board) : Option (ℕ × ℕ) :=
  allCells.find? fun p => getCell b p.1 p.2 == none

/-- Simultaneous swap `[l[i], l[j]] = [l[j], l[i]]` of two list entries. -/
def swapL (l : List ℕ) (i j : ℕ) : List ℕ :=
  (l.set i (l.getD j 0)).set j (l.getD i 0)

/-- Fisher–Yates loop of `generateSolution` (lines 55–58): at countdown
index `i = n + 1` it swaps position `i` with `j = rands k % (i + 1)`,
consuming one random draw. -/
def shuffleGo (rands : ℕ → ℕ) : ℕ → List ℕ → ℕ → List ℕ
  | _, l, 0 => l
  | k, l, n + 1 => shuffleGo rands (k + 1) (swapL l (n + 1) (rands k % (n + 2))) n

/-- The freshly shuffled candidate list `numbers` of `generateSolution`,
starting from draw index `k` (8 draws are consumed). -/
def shuffledNumbers (rands : ℕ → ℕ) (k : ℕ) : List ℕ :=
  shuffleGo rands k [1, 2, 3, 4, 5, 6, 7, 8, 9] 8

/-- One step of the candidate loop of `generateSolution`: once a recursive
call has succeeded the remaining candidates are not tried. -/
def tryStep (f : ℕ → ℕ → Option Board × ℕ) (acc : Option Board × ℕ) (num : ℕ) :
    Option Board × ℕ :=
  match acc with
  | (some b, k) => (some b, k)
  | (none, k) => f num k

/-- Embedding of `generateSolution` (lines 46–71).  The in-place mutation
`board[row][col] = num` followed by the backtracking reset to `null` is
embedded by passing `setCell b r c (some num)` to the recursive call and
keeping `b` for the remaining candidates.  `fuel` bounds the recursion
depth (each recursive call is made on a board with one empty cell fewer,
so any fuel above `emptyCount b` is never exhausted); `k` counts consumed
random draws. -/
def genAux (rands : ℕ → ℕ) : ℕ → Board → ℕ → Option Board × ℕ
  | 0, _, k => (none, k)
  | fuel + 1, b, k =>
    match findEmptyCell b with
    | none => (some b, k)
    | some (r, c) =>
      (shuffledNumbers rands k).foldl
        (tryStep fun num k' =>
          if isValidPlacement b r c num then
            genAux rands fuel (setCell b r c (some num)) k'
          else (none, k'))
        (none, k + 8)

/-- Top-level `generateSolution`: 82 fuel strictly exceeds the empty-cell
count of any board, so the fuel cutoff is never reached.  Returns the
filled board on success (`true` in the source) and `none` on failure. -/
def generateSolution (b : Board) (rands : ℕ → ℕ) : Option Board :=
  (genAux rands 82 b 0).1

inductive Difficulty : Type
  | Easy : Difficulty
  | Medium : Difficulty
  | Hard : Difficulty

/-- The `removals` count chosen by `createPuzzle` (lines 75–78). -/
def removalsFor : Difficulty → ℕ
  | Difficulty.Easy => 35
  | Difficulty.Medium => 45
  | Difficulty.Hard => 55

/-- The `JSON.parse(JSON.stringify(...))` deep copy of a board. -/
def deepCopy (b : Board) : Board :=
  b.map fun row => row.map id

/-- Embedding of the `while (attempts > 0)` loop of `createPuzzle`
(lines 80–89).  Each iteration draws a row and a column; a filled cell is
cleared and `attempts` decremented, an empty cell costs a retry.  The
solved board is threaded through unchanged, making it explicit that every
write of the loop targets the deep copy and never the caller's solved
grid.  `fuel` bounds the number of iterations (the JS loop runs until
`attempts` hits 0, which an adversarial random stream can postpone
forever); `none` means the fuel ran out mid-loop. -/
def carveLoop (rands : ℕ → ℕ) : ℕ → Board → Board → ℕ → ℕ → Option (Board × Board)
  | _, solved, puzzle, 0, _ => some (solved, puzzle)
  | 0, _, _, _ + 1, _ => none
  | fuel + 1, solved, puzzle, attempts + 1, k =>
    if getCell puzzle (rands k % 9) (rands (k + 1) % 9) ≠ none then
      carveLoop rands fuel solved
        (setCell puzzle (rands k % 9) (rands (k + 1) % 9) none) attempts (k + 2)
    else
      carveLoop rands fuel solved puzzle (attempts + 1) (k + 2)

/-- Embedding of `createPuzzle` (lines 73–91): carve `removals` cells out
of a deep copy of the solved board.  The pair returned on termination is
(final state of the solved board, carved puzzle). -/
def createPuzzle (solvedBoard : Board) (difficulty : Difficulty)
    (rands : ℕ → ℕ) (fuel : ℕ) : Option (Board × Board) :=
  carveLoop rands fuel solvedBoard (deepCopy solvedBoard) (removalsFor difficulty) 0

/-- Embedding of `isCellInConflict` (lines 120–142).  Note the box scan
skips every box cell sharing the target's row or column
(`r !== row && c !== col`), not only the target itself. -/
def isCellInConflict (b : Board) (row col : ℕ) : Bool :=
  match getCell b row col with
  | none => false
  | some value =>
    ((List.range 9).any fun c => c != col && getCell b row c == some value) ||
    ((List.range 9).any fun r => r != row && getCell b r col == some value) ||
    ((List.range 3).any fun i => (List.range 3).any fun j =>
      (row / 3 * 3 + i != row && col / 3 * 3 + j != col) &&
        getCell b (row / 3 * 3 + i) (col / 3 * 3 + j) == some value)

/-- Embedding of `checkSolution` (lines 100–109): false on the first empty
or conflicting cell. -/
def checkSolution (b : Board) : Bool :=
  (List.range 9).all fun i => (List.range 9).all fun j =>
    !(getCell b i j == none) && !(isCellInConflict b i j)

/-- The cells of row `r`. -/
def rowCells (r : ℕ) : List (ℕ × ℕ) :=
  (List.range 9).map fun c => (r, c)

/-- The cells of column `c`. -/
def colCells (c : ℕ) : List (ℕ × ℕ) :=
  (List.range 9).map fun r => (r, c)

/-- The cells of box `(br, bc)` in the scan order of the source. -/
def boxCells (br bc : ℕ) : List (ℕ × ℕ) :=
  (List.range 3).flatMap fun ro => (List.range 3).map fun co =>
    (br * 3 + ro, bc * 3 + co)

/-- Columns of row `r` holding value `num` (the row `indices` list of
`findAllConflicts`, line 151). -/
def rowIndices (b : Board) (num r : ℕ) : List ℕ :=
  (List.range 9).filter fun c => getCell b r c == some num

/-- Rows of column `c` holding value `num` (line 156). -/
def colIndices (b : Board) (num c : ℕ) : List ℕ :=
  (List.range 9).filter fun r => getCell b r c == some num

/-- Cells of box `(br, bc)` holding value `num` (lines 162–169). -/
def boxIndices (b : Board) (num br bc : ℕ) : List (ℕ × ℕ) :=
  (boxCells br bc).filter fun p => getCell b p.1 p.2 == some num

/-- Embedding of `findAllConflicts` (lines 144–175).  The JS `Set<string>`
of keys `"r-c"` is embedded as a `Finset` of coordinate pairs (`toFinset`
performs the deduplication the `Set` performs on `add`). -/
def findAllConflicts (b : Board) : Finset (ℕ × ℕ) :=
  (((List.range' 1 9).flatMap fun num =>
    ((List.range 9).flatMap fun r =>
      if 1 < (rowIndices b num r).length then
        (rowIndices b num r).map fun c => (r, c)
      else []) ++
    ((List.range 9).flatMap fun c =>
      if 1 < (colIndices b num c).length then
        (colIndices b num c).map fun r => (r, c)
      else []) ++
    ((List.range 3).flatMap fun br => (List.range 3).flatMap fun bc =>
      if 1 < (boxIndices b num br bc).length then boxIndices b num br bc
      else []))).toFinset

/-- Modelled from the spec: the fill step of the round-trip scenario
("fill every empty cell of P using S's values") is not part of
`sudokuService.ts`; following §8 of the spec it writes the solution's
value into every empty cell of the puzzle and keeps filled cells. -/
def fillFrom (p s : Board) : Board :=
  (List.range 9).map fun r => (List.range 9).map fun c =>
    match getCell p r c with
    | none => getCell s r c
    | some v => some v

/-- The fresh empty 9×9 board the engine generates from. -/
def emptyBoard : Board :=
  List.replicate 9 (List.replicate 9 (none : Option ℕ))

/-- A concrete full valid sudoku grid (cyclic construction). -/
def solvedGrid : Board :=
  [[some 1, some 2, some 3, some 4, some 5, some 6, some 7, some 8, some 9],
   [some 4, some 5, some 6, some 7, some 8, some 9, some 1, some 2, some 3],
   [some 7, some 8, some 9, some 1, some 2, some 3, some 4, some 5, some 6],
   [some 2, some 3, some 4, some 5, some 6, some 7, some 8, some 9, some 1],
   [some 5, some 6, some 7, some 8, some 9, some 1, some 2, some 3, some 4],
   [some 8, some 9, some 1, some 2, some 3, some 4, some 5, some 6, some 7],
   [some 3, some 4, some 5, some 6, some 7, some 8, some 9, some 1, some 2],
   [some 6, some 7, some 8, some 9, some 1, some 2, some 3, some 4, some 5],
   [some 9, some 1, some 2, some 3, some 4, some 5, some 6, some 7, some 8]]

/-- The second board agrees with the first on every filled in-range cell. -/
def extendsB (b s : Board) : Prop :=
  ∀ r < 9, ∀ c < 9, getCell b r c = none ∨ getCell b r c = getCell s r c

/-- Some full, value-valid, duplicate-free board extends the given one. -/
def solvableFrom (b : Board) : Prop :=
  ∃ s : Board, fullBoard s ∧ validVals s ∧ validBoard s ∧ extendsB b s

instance (b : Board) : Decidable (boardWF b) :=
  inferInstanceAs (Decidable (_ ∧ _))

instance (b : Board) : Decidable (validVals b) :=
  inferInstanceAs (Decidable (∀ r < 9, ∀ c < 9, ∀ v, _ = some v → _ ∧ _))

instance (b : Board) : Decidable (fullBoard b) :=
  inferInstanceAs (Decidable (∀ r < 9, ∀ c < 9, _ ≠ none))

instance (r c r' c' : ℕ) : Decidable (sameBox r c r' c') :=
  inferInstanceAs (Decidable (_ ∧ _))

instance (b : Board) (row col num : ℕ) : Decidable (occursInUnits b row col num) :=
  inferInstanceAs (Decidable (∃ r < 9, ∃ c < 9, _ ∧ _))

instance (b : Board) (row col num : ℕ) : Decidable (occursElsewhere b row col num) :=
  inferInstanceAs (Decidable (∃ r < 9, ∃ c < 9, _ ∧ _ ∧ _))

instance (b : Board) (r c : ℕ) : Decidable (conflictSpec b r c) :=
  inferInstanceAs (Decidable (_ ∧ ∃ r' < 9, ∃ c' < 9, _ ∧ _ ∧ _))

instance (b : Board) : Decidable (validBoard b) :=
  inferInstanceAs (Decidable (∀ r < 9, ∀ c < 9, ¬ _))

instance (b s : Board) : Decidable (extendsB b s) :=
  inferInstanceAs (Decidable (∀ r < 9, ∀ c < 9, _ ∨ _))

/-- The solved grid with one hole at (4, 4). -/
def nearlySolved : Board :=
  setCell solvedGrid 4 4 none

/-- A full board repeating the value 1 everywhere. -/
def allOnes : Board :=
  List.replicate 9 (List.replicate 9 (some 1))

/-- A board whose only filled cell is (0, 0) = 5. -/
def singleFive : Board :=
  setCell emptyBoard 0 0 (some 5)

/-- A board with two 7s in row 0, at columns 0 and 3. -/
def conflictBoard : Board :=
  setCell (setCell emptyBoard 0 0 (some 7)) 0 3 (some 7)

/-- An unsolvable board: cell (0, 8) is empty, its row holds 1..8 and its
column already holds a 9. -/
def contradictoryBoard : Board :=
  [[some 1, some 2, some 3, some 4, some 5, some 6, some 7, some 8, none],
   [none, none, none, none, none, none, none, none, some 9],
   List.replicate 9 none, List.replicate 9 none, List.replicate 9 none,
   List.replicate 9 none, List.replicate 9 none, List.replicate 9 none,
   List.replicate 9 none]

/-- A random stream whose row/column draws sweep the 81 cells in row-major
order, one fresh cell per carving iteration. -/
def wstream (k : ℕ) : ℕ :=
  if k % 2 = 0 then k / 18 else (k / 2) % 9

/-! ### Basic cell access lemmas -/

theorem getCell_eq (b : Board) (r c : ℕ) :
    getCell b r c = (b[r]?.getD [])[c]?.getD none := by
  simp [getCell, List.getD_eq_getElem?_getD]

theorem length_row_of_WF {b : Board} (h : boardWF b) {r : ℕ} (hr : r < 9) :
    (b.getD r []).length = 9 := by
  rcases h with ⟨hlen, hrows⟩
  have hrb : r < b.length := by omega
  rw [List.getD_eq_getElem?_getD, List.getElem?_eq_getElem hrb]
  exact hrows _ (List.getElem_mem hrb)

theorem getCell_setCell_same {b : Board} (h : boardWF b) {r c : ℕ}
    (hr : r < 9) (hc : c < 9) (v : Option ℕ) :
    getCell (setCell b r c v) r c = v := by
  have hrb : r < b.length := by rw [h.1]; exact hr
  have hcb : c < (b[r]?.getD []).length := by
    rw [← List.getD_eq_getElem?_getD, length_row_of_WF h hr]; omega
  rw [getCell_eq, setCell, List.getD_eq_getElem?_getD,
    List.getElem?_set_self (by simpa using hrb)]
  simp [List.getElem?_set_self hcb]

theorem getCell_setCell_other {b : Board} {r c r' c' : ℕ}
    (hne : (r', c') ≠ (r, c)) (v : Option ℕ) :
    getCell (setCell b r c v) r' c' = getCell b r' c' := by
  rcases eq_or_ne r' r with rfl | hrr
  · have hcc : c' ≠ c := by simpa using hne
    rw [getCell_eq, getCell_eq, setCell]
    by_cases hrb : r' < b.length
    · rw [List.getElem?_set_self (by simpa using hrb)]
      simp [List.getElem?_set_ne (Ne.symm hcc), List.getD_eq_getElem?_getD]
    · rw [List.set_eq_of_length_le (by omega)]
  · rw [getCell_eq, getCell_eq, setCell, List.getElem?_set_ne (Ne.symm hrr)]

theorem boardWF_setCell {b : Board} (h : boardWF b) {r : ℕ} (hr : r < 9)
    (c : ℕ) (v : Option ℕ) : boardWF (setCell b r c v) := by
  obtain ⟨hlen, hrows⟩ := h
  refine ⟨by simp [setCell, hlen], ?_⟩
  intro row hrow
  rcases List.mem_or_eq_of_mem_set hrow with hmem | rfl
  · exact hrows _ hmem
  · rw [List.length_set]
    exact length_row_of_WF ⟨hlen, hrows⟩ hr

/-! ### Cell enumeration and counting -/

theorem mem_allCells {p : ℕ × ℕ} : p ∈ allCells ↔ p.1 < 9 ∧ p.2 < 9 := by
  obtain ⟨r, c⟩ := p
  simp only [allCells, List.mem_flatMap, List.mem_map, List.mem_range,
    Prod.mk.injEq]
  constructor
  · rintro ⟨a, ha, cc, hcc, h1, h2⟩
    subst h1; subst h2
    exact ⟨ha, hcc⟩
  · rintro ⟨hr, hc⟩
    exact ⟨r, hr, c, hc, rfl, rfl⟩

theorem nodup_allCells : allCells.Nodup := by decide

theorem length_allCells : allCells.length = 81 := by decide

/-- Flipping the predicate value at a single member of a duplicate-free
list moves its `countP` by exactly one. -/
theorem countP_flip {α : Type} {l : List α} (hnd : l.Nodup) {x : α}
    (hx : x ∈ l) {p q : α → Bool} (hpx : p x = true) (hqx : q x = false)
    (hagree : ∀ y ∈ l, y ≠ x → q y = p y) :
    l.countP q + 1 = l.countP p := by
  induction l with
  | nil => cases hx
  | cons a t ih =>
    have hnd' := List.nodup_cons.1 hnd
    rw [List.countP_cons, List.countP_cons]
    by_cases hax : a = x
    · subst hax
      have ht : t.countP q = t.countP p := by
        apply List.countP_congr
        intro y hy
        rw [hagree y (List.mem_cons_of_mem _ hy) fun hyx => hnd'.1 (hyx ▸ hy)]
      rw [hpx, hqx, ht]
      simp
    · have hxt : x ∈ t := by
        rcases List.mem_cons.1 hx with h | h
        · exact absurd h.symm hax
        · exact h
      have haq : q a = p a := hagree a (List.mem_cons_self a t) hax
      have hih := ih hnd'.2 hxt
        (fun y hy hyx => hagree y (List.mem_cons_of_mem _ hy) hyx)
      rw [haq]
      cases hpa : p a <;> simp [hpa] <;> omega

theorem emptyCount_le (b : Board) : emptyCount b ≤ 81 :=
  length_allCells ▸ List.countP_le_length _

/-- Filling an empty in-range cell decreases the empty count by one. -/
theorem emptyCount_setCell {b : Board} (h : boardWF b) {r c : ℕ}
    (hr : r < 9) (hc : c < 9) (hcell : getCell b r c = none) (v : ℕ) :
    emptyCount (setCell b r c (some v)) + 1 = emptyCount b := by
  apply countP_flip (x := (r, c)) nodup_allCells (mem_allCells.2 ⟨hr, hc⟩)
  · simp [hcell]
  · simp [getCell_setCell_same h hr hc]
  · intro y _ hyx
    show (getCell (setCell b r c (some v)) y.1 y.2 == none)
      = (getCell b y.1 y.2 == none)
    rw [getCell_setCell_other (by rw [Prod.mk.eta]; exact hyx)]

/-- Clearing a filled in-range cell decreases the filled count by one. -/
theorem filledCount_setCell {b : Board} (h : boardWF b) {r c : ℕ}
    (hr : r < 9) (hc : c < 9) (hcell : getCell b r c ≠ none) :
    filledCount (setCell b r c none) + 1 = filledCount b := by
  apply countP_flip (x := (r, c)) nodup_allCells (mem_allCells.2 ⟨hr, hc⟩)
  · simp [hcell]
  · simp [getCell_setCell_same h hr hc]
  · intro y _ hyx
    show (!(getCell (setCell b r c none) y.1 y.2 == none))
      = (!(getCell b y.1 y.2 == none))
    rw [getCell_setCell_other (by rw [Prod.mk.eta]; exact hyx)]

theorem filledCount_of_full {b : Board} (h : fullBoard b) :
    filledCount b = 81 := by
  rw [filledCount, ← length_allCells]
  apply List.countP_eq_length.2
  intro p hp
  obtain ⟨h1, h2⟩ := mem_allCells.1 hp
  simpa using h p.1 h1 p.2 h2

theorem emptyCount_pos {b : Board} {r c : ℕ} (hr : r < 9) (hc : c < 9)
    (hcell : getCell b r c = none) : 0 < emptyCount b :=
  List.countP_pos_iff.2 ⟨(r, c), mem_allCells.2 ⟨hr, hc⟩, by simp [hcell]⟩

/-! ### findEmptyCell -/

theorem findEmptyCell_eq_some {b : Board} {r c : ℕ}
    (h : findEmptyCell b = some (r, c)) :
    r < 9 ∧ c < 9 ∧ getCell b r c = none := by
  have h1 := List.find?_some h
  have h2 := List.mem_of_find?_eq_some h
  obtain ⟨hr, hc⟩ := mem_allCells.1 h2
  exact ⟨hr, hc, by simpa using h1⟩

theorem findEmptyCell_eq_none {b : Board} :
    findEmptyCell b = none ↔ fullBoard b := by
  rw [findEmptyCell, List.find?_eq_none]
  constructor
  · intro h r hr c hc
    simpa using h (r, c) (mem_allCells.2 ⟨hr, hc⟩)
  · intro h p hp
    obtain ⟨h1, h2⟩ := mem_allCells.1 hp
    simpa using h p.1 h1 p.2 h2

/-! ### Characterization of the placement validator -/

theorem isValidPlacement_true_iff {b : Board} {row col : ℕ} (num : ℕ)
    (hrow : row < 9) (hcol : col < 9) :
    isValidPlacement b row col num = true ↔ ¬ occursInUnits b row col num := by
  simp only [isValidPlacement, Bool.and_eq_true, List.all_eq_true,
    List.mem_range, Bool.not_eq_true', beq_eq_false_iff_ne, ne_eq]
  constructor
  · rintro ⟨⟨hrowscan, hcolscan⟩, hboxscan⟩ ⟨r, hr, c, hc, hget, hrel⟩
    rcases hrel with rfl | rfl | ⟨h1, h2⟩
    · exact hrowscan c hc hget
    · exact hcolscan r hr hget
    · have hi : r % 3 + (row - row % 3) = r := by omega
      have hj : c % 3 + (col - col % 3) = c := by omega
      have := hboxscan (r % 3) (by omega) (c % 3) (by omega)
      rw [hi, hj] at this
      exact this hget
  · intro hno
    refine ⟨⟨fun x hx hget => hno ⟨row, hrow, x, hx, hget, Or.inl rfl⟩,
      fun x hx hget => hno ⟨x, hx, col, hcol, hget, Or.inr (Or.inl rfl)⟩⟩,
      fun i hi j hj hget => hno ⟨i + (row - row % 3), by omega,
        j + (col - col % 3), by omega, hget,
        Or.inr (Or.inr ⟨by omega, by omega⟩)⟩⟩

theorem isValidPlacement_false_iff {b : Board} {row col : ℕ} (num : ℕ)
    (hrow : row < 9) (hcol : col < 9) :
    isValidPlacement b row col num = false ↔ occursInUnits b row col num := by
  rw [← Bool.not_eq_true, isValidPlacement_true_iff num hrow hcol, not_not]

/-! ### Characterization of the single-cell conflict test -/

theorem isCellInConflict_true_iff {b : Board} {row col : ℕ}
    (hrow : row < 9) (hcol : col < 9) :
    isCellInConflict b row col = true ↔ conflictSpec b row col := by
  rw [isCellInConflict]
  cases hv : getCell b row col with
  | none =>
    simp only [conflictSpec, hv, ne_eq, not_true_eq_false, false_and]
    simp
  | some value =>
    simp only [Bool.or_eq_true, List.any_eq_true, List.mem_range,
      Bool.and_eq_true, bne_iff_ne, ne_eq, beq_iff_eq]
    constructor
    · rintro ((⟨c, hc, hne, hget⟩ | ⟨r, hr, hne, hget⟩) |
        ⟨i, hi, j, hj, ⟨hner, hnec⟩, hget⟩)
      · exact ⟨by simp [hv], row, hrow, c, hc, by simp [hne], by rw [hget, hv],
          Or.inl rfl⟩
      · exact ⟨by simp [hv], r, hr, col, hcol, by simp [hne], by rw [hget, hv],
          Or.inr (Or.inl rfl)⟩
      · exact ⟨by simp [hv], row / 3 * 3 + i, by omega, col / 3 * 3 + j,
          by omega, by simp [hner], by rw [hget, hv],
          Or.inr (Or.inr ⟨by omega, by omega⟩)⟩
    · rintro ⟨-, r', hr', c', hc', hne, hget, hrel⟩
      rw [hv] at hget
      have hne' : ¬ (r' = row ∧ c' = col) := by
        intro hand
        exact hne (by rw [hand.1, hand.2])
      rcases hrel with rfl | rfl | ⟨h1, h2⟩
      · exact Or.inl (Or.inl ⟨c', hc', fun h => hne' ⟨rfl, h⟩, hget⟩)
      · exact Or.inl (Or.inr ⟨r', hr', fun h => hne' ⟨h, rfl⟩, hget⟩)
      · by_cases hrr : r' = row
        · subst hrr
          exact Or.inl (Or.inl ⟨c', hc', fun h => hne' ⟨rfl, h⟩, hget⟩)
        · by_cases hcc : c' = col
          · subst hcc
            exact Or.inl (Or.inr ⟨r', hr', hrr, hget⟩)
          · refine Or.inr ⟨r' % 3, by omega, c' % 3, by omega,
              ⟨by omega, by omega⟩, ?_⟩
            have hi : row / 3 * 3 + r' % 3 = r' := by omega
            have hj : col / 3 * 3 + c' % 3 = c' := by omega
            rw [hi, hj]
            exact hget

/-! ### Characterization of the solved-state checker -/

theorem checkSolution_true_iff (b : Board) :
    checkSolution b = true ↔
      ∀ r < 9, ∀ c < 9, getCell b r c ≠ none ∧ ¬ conflictSpec b r c := by
  simp only [checkSolution, List.all_eq_true, List.mem_range,
    Bool.and_eq_true, Bool.not_eq_true', beq_eq_false_iff_ne, ne_eq]
  constructor
  · intro h r hr c hc
    obtain ⟨h1, h2⟩ := h r hr c hc
    exact ⟨h1, by rw [← isCellInConflict_true_iff hr hc, h2]; simp⟩
  · intro h r hr c hc
    obtain ⟨h1, h2⟩ := h r hr c hc
    refine ⟨h1, ?_⟩
    rw [← Bool.not_eq_true, isCellInConflict_true_iff hr hc]
    exact h2

/-! ### The shuffled candidate list holds exactly the values 1..9 -/

theorem length_swapL (l : List ℕ) (i j : ℕ) : (swapL l i j).length = l.length := by
  simp [swapL]

theorem mem_of_mem_swapL {l : List ℕ} {i j x : ℕ} (hi : i < l.length)
    (hj : j < l.length) (hx : x ∈ swapL l i j) : x ∈ l := by
  rcases List.mem_or_eq_of_mem_set hx with hx' | rfl
  · rcases List.mem_or_eq_of_mem_set hx' with hx'' | rfl
    · exact hx''
    · rw [List.getD_eq_getElem?_getD, List.getElem?_eq_getElem hj]
      exact List.getElem_mem hj
  · rw [List.getD_eq_getElem?_getD, List.getElem?_eq_getElem hi]
    exact List.getElem_mem hi

theorem mem_swapL_of_mem {l : List ℕ} {i j x : ℕ} (hi : i < l.length)
    (hj : j < l.length) (hx : x ∈ l) : x ∈ swapL l i j := by
  obtain ⟨n, hn, rfl⟩ := List.mem_iff_getElem.1 hx
  have hlen1 : ((l.set i (l.getD j 0)).set j (l.getD i 0)).length = l.length := by
    simp
  by_cases hni : n = i
  · subst hni
    have : (swapL l n j)[j]? = some l[n] := by
      rw [swapL, List.getElem?_set_self (by simpa using hj)]
      rw [List.getD_eq_getElem?_getD, List.getElem?_eq_getElem hn]
      rfl
    exact List.mem_iff_getElem?.2 ⟨j, this⟩
  · by_cases hnj : n = j
    · subst hnj
      have : (swapL l i n)[i]? = some l[n] := by
        rw [swapL, List.getElem?_set_ne hni,
          List.getElem?_set_self (by simpa using hi)]
        rw [List.getD_eq_getElem?_getD, List.getElem?_eq_getElem hn]
        rfl
      exact List.mem_iff_getElem?.2 ⟨i, this⟩
    · have : (swapL l i j)[n]? = some l[n] := by
        rw [swapL, List.getElem?_set_ne (fun h => hnj h.symm),
          List.getElem?_set_ne (fun h => hni h.symm),
          List.getElem?_eq_getElem hn]
      exact List.mem_iff_getElem?.2 ⟨n, this⟩

theorem length_shuffleGo (rands : ℕ → ℕ) :
    ∀ n k l, (shuffleGo rands k l n).length = l.length := by
  intro n
  induction n with
  | zero => intro k l; rfl
  | succ m ih =>
    intro k l
    rw [shuffleGo, ih, length_swapL]

theorem mem_shuffleGo_iff (rands : ℕ → ℕ) :
    ∀ n k l x, n < l.length → (x ∈ shuffleGo rands k l n ↔ x ∈ l) := by
  intro n
  induction n with
  | zero => intro k l x _; rfl
  | succ m ih =>
    intro k l x hn
    rw [shuffleGo]
    have hi : m + 1 < l.length := hn
    have hj : rands k % (m + 2) < l.length := by
      have := Nat.mod_lt (rands k) (y := m + 2) (by omega)
      omega
    constructor
    · intro hmem
      have := (ih (k + 1) _ x (by rw [length_swapL]; omega)).1 hmem
      exact mem_of_mem_swapL hi hj this
    · intro hmem
      exact (ih (k + 1) _ x (by rw [length_swapL]; omega)).2
        (mem_swapL_of_mem hi hj hmem)

theorem mem_shuffledNumbers {rands : ℕ → ℕ} {k x : ℕ} :
    x ∈ shuffledNumbers rands k ↔ (1 ≤ x ∧ x ≤ 9) := by
  rw [shuffledNumbers, mem_shuffleGo_iff rands 8 k _ x (by simp)]
  constructor
  · intro h
    fin_cases h <;> omega
  · intro h
    have : x = 1 ∨ x = 2 ∨ x = 3 ∨ x = 4 ∨ x = 5 ∨ x = 6 ∨ x = 7 ∨ x = 8 ∨
        x = 9 := by omega
    rcases this with rfl | rfl | rfl | rfl | rfl | rfl | rfl | rfl | rfl <;> simp

/-! ### The candidate loop of the generator -/

theorem foldl_tryStep_some (f : ℕ → ℕ → Option Board × ℕ) (l : List ℕ)
    (b : Board) (k : ℕ) : l.foldl (tryStep f) (some b, k) = (some b, k) := by
  induction l with
  | nil => rfl
  | cons a t ih => rw [List.foldl_cons, tryStep, ih]

theorem foldl_tryStep_isSome {f : ℕ → ℕ → Option Board × ℕ} {l : List ℕ}
    {v : ℕ} (hv : v ∈ l) (hf : ∀ k', ((f v k').1).isSome) :
    ∀ k, (((l.foldl (tryStep f) (none, k)).1)).isSome := by
  induction l with
  | nil => cases hv
  | cons a t ih =>
    intro k
    rw [List.foldl_cons, tryStep]
    cases hfa : f a k with
    | mk o k' =>
      cases o with
      | some res => rw [foldl_tryStep_some]; rfl
      | none =>
        rcases List.mem_cons.1 hv with rfl | hvt
        · have := hf k
          rw [hfa] at this
          cases this
        · exact ih hvt k'

theorem foldl_tryStep_eq_some {f : ℕ → ℕ → Option Board × ℕ} {l : List ℕ}
    {res : Board} {k k'' : ℕ}
    (h : l.foldl (tryStep f) (none, k) = (some res, k'')) :
    ∃ num ∈ l, ∃ k', f num k' = (some res, k'') := by
  induction l generalizing k with
  | nil => cases h
  | cons a t ih =>
    rw [List.foldl_cons, tryStep] at h
    cases hfa : f a k with
    | mk o k' =>
      rw [hfa] at h
      cases o with
      | some b =>
        rw [foldl_tryStep_some] at h
        cases h
        exact ⟨a, List.mem_cons_self a t, k, hfa⟩
      | none =>
        obtain ⟨num, hnum, k₀, hk₀⟩ := ih h
        exact ⟨num, List.mem_cons_of_mem _ hnum, k₀, hk₀⟩

/-! ### Soundness of the generator -/

theorem validVals_setCell {b : Board} (hb : boardWF b) (hv : validVals b)
    {r c num : ℕ} (hr : r < 9) (hc : c < 9) (h1 : 1 ≤ num) (h9 : num ≤ 9) :
    validVals (setCell b r c (some num)) := by
  intro r' hr' c' hc' v hget
  by_cases hp : (r', c') = (r, c)
  · obtain ⟨rfl, rfl⟩ := Prod.mk.injEq .. ▸ hp
    rw [getCell_setCell_same hb hr hc] at hget
    cases hget
    exact ⟨h1, h9⟩
  · rw [getCell_setCell_other hp] at hget
    exact hv r' hr' c' hc' v hget

theorem validBoard_setCell {b : Board} (hb : boardWF b) (hvalid : validBoard b)
    {r c num : ℕ} (hr : r < 9) (hc : c < 9)
    (hcell : getCell b r c = none)
    (hok : isValidPlacement b r c num = true) :
    validBoard (setCell b r c (some num)) := by
  have hno : ¬ occursInUnits b r c num :=
    (isValidPlacement_true_iff num hr hc).1 hok
  intro r₀ hr₀ c₀ hc₀ hconf
  obtain ⟨hne₀, r₁, hr₁, c₁, hc₁, hne₁, hval₁, hrel₁⟩ := hconf
  by_cases h₀ : (r₀, c₀) = (r, c)
  · obtain ⟨rfl, rfl⟩ := Prod.mk.injEq .. ▸ h₀
    rw [getCell_setCell_same hb hr hc] at hval₁
    rw [getCell_setCell_other hne₁] at hval₁
    exact hno ⟨r₁, hr₁, c₁, hc₁, hval₁, hrel₁⟩
  · rw [getCell_setCell_other h₀] at hne₀ hval₁
    by_cases h₁ : (r₁, c₁) = (r, c)
    · obtain ⟨rfl, rfl⟩ := Prod.mk.injEq .. ▸ h₁
      rw [getCell_setCell_same hb hr hc] at hval₁
      refine hno ⟨r₀, hr₀, c₀, hc₀, hval₁.symm, ?_⟩
      rcases hrel₁ with h | h | h
      · exact Or.inl h.symm
      · exact Or.inr (Or.inl h.symm)
      · exact Or.inr (Or.inr ⟨h.1.symm, h.2.symm⟩)
    · rw [getCell_setCell_other h₁] at hval₁
      exact hvalid r₀ hr₀ c₀ hc₀ ⟨hne₀, r₁, hr₁, c₁, hc₁, hne₁, hval₁, hrel₁⟩

/-- Invariant preservation along the backtracking search: any board a
successful `genAux` run returns is well-formed, value-valid,
duplicate-free and full, provided the starting board was well-formed,
value-valid and duplicate-free. -/
theorem genAux_sound (rands : ℕ → ℕ) :
    ∀ fuel b k res k', boardWF b → validVals b → validBoard b →
      genAux rands fuel b k = (some res, k') →
      boardWF res ∧ validVals res ∧ validBoard res ∧ fullBoard res := by
  intro fuel
  induction fuel with
  | zero => intro b k res k' _ _ _ h; cases h
  | succ n ih =>
    intro b k res k' hwf hvals hvalid h
    rw [genAux] at h
    cases hfind : findEmptyCell b with
    | none =>
      rw [hfind] at h
      cases h
      exact ⟨hwf, hvals, hvalid, findEmptyCell_eq_none.1 hfind⟩
    | some rc =>
      obtain ⟨r, c⟩ := rc
      rw [hfind] at h
      obtain ⟨hr, hc, hcell⟩ := findEmptyCell_eq_some hfind
      obtain ⟨num, hnum, k₀, hk₀⟩ := foldl_tryStep_eq_some h
      by_cases hok : isValidPlacement b r c num = true
      · rw [if_pos hok] at hk₀
        obtain ⟨h1, h9⟩ := mem_shuffledNumbers.1 hnum
        exact ih _ k₀ res k' (boardWF_setCell hwf hr c _)
          (validVals_setCell hwf hvals hr hc h1 h9)
          (validBoard_setCell hwf hvalid hr hc hcell hok) hk₀
      · rw [if_neg hok] at hk₀
        cases hk₀

/-! ### Completeness of the generator -/

/-- The backtracking search succeeds whenever some full valid board extends
the starting board (and the fuel exceeds the number of empty cells). -/
theorem genAux_complete (rands : ℕ → ℕ) :
    ∀ fuel b k, boardWF b → emptyCount b < fuel → solvableFrom b →
      (((genAux rands fuel b k).1)).isSome := by
  intro fuel
  induction fuel with
  | zero => intro b k _ h _; omega
  | succ n ih =>
    intro b k hwf hfuel hsolv
    rw [genAux]
    cases hfind : findEmptyCell b with
    | none => rfl
    | some rc =>
      obtain ⟨r, c⟩ := rc
      obtain ⟨hr, hc, hcell⟩ := findEmptyCell_eq_some hfind
      obtain ⟨S, hSfull, hSvals, hSvalid, hext⟩ := hsolv
      obtain ⟨v, hv⟩ : ∃ v, getCell S r c = some v := by
        cases hS : getCell S r c with
        | none => exact absurd hS (hSfull r hr c hc)
        | some w => exact ⟨w, rfl⟩
      obtain ⟨h1, h9⟩ := hSvals r hr c hc v hv
      have hvmem : v ∈ shuffledNumbers rands k := mem_shuffledNumbers.2 ⟨h1, h9⟩
      have hok : isValidPlacement b r c v = true := by
        rw [isValidPlacement_true_iff v hr hc]
        rintro ⟨r₁, hr₁, c₁, hc₁, hget₁, hrel₁⟩
        have hne : (r₁, c₁) ≠ (r, c) := by
          intro h
          obtain ⟨rfl, rfl⟩ := Prod.mk.injEq .. ▸ h
          rw [hcell] at hget₁
          cases hget₁
        have hS₁ : getCell S r₁ c₁ = some v := by
          rcases hext r₁ hr₁ c₁ hc₁ with h | h
          · rw [h] at hget₁; cases hget₁
          · rw [← h]; exact hget₁
        refine hSvalid r₁ hr₁ c₁ hc₁ ⟨by simp [hS₁], r, hr, c, hc,
          Ne.symm hne, by rw [hv, hS₁], ?_⟩
        rcases hrel₁ with h | h | h
        · exact Or.inl h.symm
        · exact Or.inr (Or.inl h.symm)
        · exact Or.inr (Or.inr ⟨h.1.symm, h.2.symm⟩)
      have hrec : ∀ k', ((genAux rands n (setCell b r c (some v)) k').1).isSome := by
        intro k'
        apply ih
        · exact boardWF_setCell hwf hr c _
        · have hdec := emptyCount_setCell hwf hr hc hcell v
          omega
        · refine ⟨S, hSfull, hSvals, hSvalid, ?_⟩
          intro r' hr' c' hc'
          by_cases hp : (r', c') = (r, c)
          · obtain ⟨rfl, rfl⟩ := Prod.mk.injEq .. ▸ hp
            exact Or.inr (by rw [getCell_setCell_same hwf hr hc, hv])
          · rw [getCell_setCell_other hp]
            exact hext r' hr' c' hc'
      apply foldl_tryStep_isSome hvmem
      intro k'
      rw [if_pos hok]
      exact hrec k'

/-! ### The carving loop -/

theorem deepCopy_eq (b : Board) : deepCopy b = b := by
  simp [deepCopy]

/-- On termination the carving loop has preserved the solved board
untouched, kept the puzzle well-formed, cleared exactly `attempts` cells,
and changed no filled cell's value. -/
theorem carveLoop_spec (rands : ℕ → ℕ) :
    ∀ fuel puzzle attempts k solved s' p', boardWF puzzle →
      carveLoop rands fuel solved puzzle attempts k = some (s', p') →
      s' = solved ∧ boardWF p' ∧ filledCount p' + attempts = filledCount puzzle ∧
        extendsB p' puzzle := by
  intro fuel
  induction fuel with
  | zero =>
    intro puzzle attempts k solved s' p' hwf h
    cases attempts with
    | zero =>
      rw [carveLoop] at h
      obtain ⟨rfl, rfl⟩ := Prod.mk.injEq .. ▸ Option.some.inj h
      exact ⟨rfl, hwf, rfl, fun r hr c hc => Or.inr rfl⟩
    | succ a => cases h
  | succ n ih =>
    intro puzzle attempts k solved s' p' hwf h
    cases attempts with
    | zero =>
      rw [carveLoop] at h
      obtain ⟨rfl, rfl⟩ := Prod.mk.injEq .. ▸ Option.some.inj h
      exact ⟨rfl, hwf, rfl, fun r hr c hc => Or.inr rfl⟩
    | succ a =>
      rw [carveLoop] at h
      by_cases hcell : getCell puzzle (rands k % 9) (rands (k + 1) % 9) ≠ none
      · rw [if_pos hcell] at h
        have hr9 : rands k % 9 < 9 := Nat.mod_lt _ (by omega)
        have hc9 : rands (k + 1) % 9 < 9 := Nat.mod_lt _ (by omega)
        obtain ⟨hs, hwf', hcount, hext⟩ := ih _ a (k + 2) solved s' p'
          (boardWF_setCell hwf hr9 _ _) h
        have hfc := filledCount_setCell hwf hr9 hc9 hcell
        refine ⟨hs, hwf', by omega, ?_⟩
        intro r hr c hc
        rcases hext r hr c hc with h0 | h0
        · exact Or.inl h0
        · by_cases hp : (r, c) = (rands k % 9, rands (k + 1) % 9)
          · obtain ⟨rfl, rfl⟩ := Prod.mk.injEq .. ▸ hp
            rw [getCell_setCell_same hwf hr9 hc9] at h0
            exact Or.inl h0
          · rw [getCell_setCell_other hp] at h0
            exact Or.inr h0
      · rw [if_neg hcell] at h
        exact ih _ (a + 1) (k + 2) solved s' p' hwf h

/-- Behaviour of `createPuzzle` on termination: the solved board comes back
unchanged, and the carved puzzle is a well-formed board obtained from the
solved board by clearing exactly `removalsFor difficulty` cells. -/
theorem createPuzzle_spec {solved : Board} {d : Difficulty} {rands : ℕ → ℕ}
    {fuel : ℕ} {s' p' : Board} (hwf : boardWF solved)
    (h : createPuzzle solved d rands fuel = some (s', p')) :
    s' = solved ∧ boardWF p' ∧
      filledCount p' + removalsFor d = filledCount solved ∧ extendsB p' solved := by
  rw [createPuzzle, deepCopy_eq] at h
  exact carveLoop_spec rands fuel solved (removalsFor d) 0 solved s' p' hwf h

/-! ### Filling a puzzle back from a solution -/

theorem getCell_fillFrom {p s : Board} {r c : ℕ} (hr : r < 9) (hc : c < 9) :
    getCell (fillFrom p s) r c =
      match getCell p r c with
      | none => getCell s r c
      | some v => some v := by
  rw [getCell_eq, fillFrom, List.getElem?_map, List.getElem?_range hr]
  simp only [Option.map_some', Option.getD_some]
  rw [List.getElem?_map, List.getElem?_range hc]
  simp only [Option.map_some', Option.getD_some]

theorem getCell_fillFrom_of_extends {p s : Board} (hext : extendsB p s)
    {r c : ℕ} (hr : r < 9) (hc : c < 9) :
    getCell (fillFrom p s) r c = getCell s r c := by
  rw [getCell_fillFrom hr hc]
  rcases hext r hr c hc with h | h
  · rw [h]
  · rw [h]
    cases getCell s r c <;> rfl

theorem conflictSpec_congr {b₁ b₂ : Board}
    (h : ∀ r < 9, ∀ c < 9, getCell b₁ r c = getCell b₂ r c) {r c : ℕ}
    (hr : r < 9) (hc : c < 9) : conflictSpec b₁ r c ↔ conflictSpec b₂ r c := by
  rw [conflictSpec, conflictSpec, h r hr c hc]
  constructor
  · rintro ⟨h0, r', hr', c', hc', hne, hval, hrel⟩
    exact ⟨h0, r', hr', c', hc', hne, by rw [← h r' hr' c' hc', hval], hrel⟩
  · rintro ⟨h0, r', hr', c', hc', hne, hval, hrel⟩
    exact ⟨h0, r', hr', c', hc', hne, by rw [h r' hr' c' hc', hval], hrel⟩

theorem checkSolution_congr {b₁ b₂ : Board}
    (h : ∀ r < 9, ∀ c < 9, getCell b₁ r c = getCell b₂ r c) :
    checkSolution b₁ = checkSolution b₂ := by
  cases hb : checkSolution b₂ with
  | true =>
    rw [checkSolution_true_iff] at hb ⊢
    intro r hr c hc
    obtain ⟨h1, h2⟩ := hb r hr c hc
    exact ⟨by rw [h r hr c hc]; exact h1,
      by rw [conflictSpec_congr h hr hc]; exact h2⟩
  | false =>
    cases hx : checkSolution b₁ with
    | false => rfl
    | true =>
      exfalso
      rw [checkSolution_true_iff] at hx
      have h2 : checkSolution b₂ = true := by
        rw [checkSolution_true_iff]
        intro r hr c hc
        obtain ⟨h1, hcf⟩ := hx r hr c hc
        exact ⟨by rw [← h r hr c hc]; exact h1,
          by rw [← conflictSpec_congr h hr hc]; exact hcf⟩
      rw [hb] at h2
      cases h2

/-! ### Each unit of a full valid board holds every value exactly once -/

/-- In a duplicate-free list, a predicate satisfied only by one listed
element counts exactly one. -/
theorem countP_eq_one_of_nodup {a : Type} {l : List a} (hnd : l.Nodup)
    {x : a} (hx : x ∈ l) {p : a → Bool} (hpx : p x = true)
    (hp : ∀ y ∈ l, p y = true → y = x) : l.countP p = 1 := by
  induction l with
  | nil => cases hx
  | cons z t ih =>
    rw [List.countP_cons]
    have hnd' := List.nodup_cons.1 hnd
    by_cases hpz : p z = true
    · have hzx : z = x := hp z (List.mem_cons_self z t) hpz
      subst hzx
      have ht : t.countP p = 0 := by
        rw [List.countP_eq_zero]
        intro y hy hpy
        have hyz : y = z := hp y (List.mem_cons_of_mem _ hy) hpy
        subst hyz
        exact hnd'.1 hy
      rw [ht, hpz]
      simp
    · have hzx : z ≠ x := fun h => hpz (h ▸ hpx)
      have hxt : x ∈ t := by
        rcases List.mem_cons.1 hx with h | h
        · exact absurd h.symm hzx
        · exact h
      rw [ih hnd'.2 hxt fun y hy hpy => hp y (List.mem_cons_of_mem _ hy) hpy]
      simp [hpz]

/-- Pigeonhole core: nine cells with pairwise distinct values drawn from
1..9 hit each value of 1..9 exactly once. -/
theorem unit_countP_one {g : Board} {cells : List (ℕ × ℕ)} (hnd : cells.Nodup)
    (hlen : cells.length = 9)
    (hvals : ∀ q ∈ cells, ∃ w, getCell g q.1 q.2 = some w ∧ 1 ≤ w ∧ w ≤ 9)
    (hinj : ∀ q ∈ cells, ∀ q' ∈ cells, q ≠ q' →
      getCell g q.1 q.2 ≠ getCell g q'.1 q'.2)
    {v : ℕ} (h1 : 1 ≤ v) (h9 : v ≤ 9) :
    cells.countP (fun q => getCell g q.1 q.2 == some v) = 1 := by
  set opt : List (Option ℕ) := cells.map fun q => getCell g q.1 q.2 with hopt
  have hoptnd : opt.Nodup := by
    apply List.Nodup.map_on _ hnd
    intro x hx y hy hf
    by_contra hne
    exact hinj x hx y hy hne hf
  have hsub : opt.toFinset ⊆ (Finset.Icc 1 9).image some := by
    intro o ho
    rw [List.mem_toFinset, hopt] at ho
    obtain ⟨q, hq, rfl⟩ := List.mem_map.1 ho
    obtain ⟨w, hw, hw1, hw9⟩ := hvals q hq
    rw [hw]
    exact Finset.mem_image.2 ⟨w, Finset.mem_Icc.2 ⟨hw1, hw9⟩, rfl⟩
  have hcard : ((Finset.Icc 1 9).image some).card ≤ opt.toFinset.card := by
    rw [List.toFinset_card_of_nodup hoptnd,
      Finset.card_image_of_injective _ (Option.some_injective ℕ)]
    simp only [Nat.card_Icc, hopt, List.length_map, hlen]
    omega
  have heq := Finset.eq_of_subset_of_card_le hsub hcard
  have hmem : some v ∈ opt := by
    rw [← List.mem_toFinset, heq]
    exact Finset.mem_image.2 ⟨v, Finset.mem_Icc.2 ⟨h1, h9⟩, rfl⟩
  have hcount : opt.countP (fun o => o == some v) = 1 := by
    apply countP_eq_one_of_nodup hoptnd hmem
    · simp
    · intro x _ hx
      simpa using hx
  rw [hopt, List.countP_map] at hcount
  rw [← hcount]
  apply List.countP_congr
  intro q _
  simp [Function.comp]

theorem rowIndices_length_eq (b : Board) (num r : ℕ) :
    (rowIndices b num r).length =
      (rowCells r).countP fun q => getCell b q.1 q.2 == some num := by
  rw [rowIndices, ← List.countP_eq_length_filter, rowCells, List.countP_map]
  rfl

theorem colIndices_length_eq (b : Board) (num c : ℕ) :
    (colIndices b num c).length =
      (colCells c).countP fun q => getCell b q.1 q.2 == some num := by
  rw [colIndices, ← List.countP_eq_length_filter, colCells, List.countP_map]
  rfl

theorem boxIndices_length_eq (b : Board) (num br bc : ℕ) :
    (boxIndices b num br bc).length =
      (boxCells br bc).countP fun q => getCell b q.1 q.2 == some num := by
  rw [boxIndices, ← List.countP_eq_length_filter]

theorem mem_rowCells {r : ℕ} {q : ℕ × ℕ} :
    q ∈ rowCells r ↔ q.1 = r ∧ q.2 < 9 := by
  obtain ⟨a, b⟩ := q
  simp only [rowCells, List.mem_map, List.mem_range, Prod.mk.injEq]
  constructor
  · rintro ⟨c, hc, h1, h2⟩
    subst h1; subst h2
    exact ⟨rfl, hc⟩
  · rintro ⟨rfl, hb⟩
    exact ⟨b, hb, rfl, rfl⟩

theorem mem_colCells {c : ℕ} {q : ℕ × ℕ} :
    q ∈ colCells c ↔ q.1 < 9 ∧ q.2 = c := by
  obtain ⟨a, b⟩ := q
  simp only [colCells, List.mem_map, List.mem_range, Prod.mk.injEq]
  constructor
  · rintro ⟨r, hr, h1, h2⟩
    subst h1; subst h2
    exact ⟨hr, rfl⟩
  · rintro ⟨ha, rfl⟩
    exact ⟨a, ha, rfl, rfl⟩

theorem mem_boxCells {br bc : ℕ} {q : ℕ × ℕ} :
    q ∈ boxCells br bc ↔ q.1 / 3 = br ∧ q.2 / 3 = bc := by
  obtain ⟨a, b⟩ := q
  simp only [boxCells, List.mem_flatMap, List.mem_map, List.mem_range,
    Prod.mk.injEq]
  constructor
  · rintro ⟨ro, hro, co, hco, h1, h2⟩
    subst h1; subst h2
    omega
  · rintro ⟨h1, h2⟩
    exact ⟨a % 3, by omega, b % 3, by omega, by omega, by omega⟩

theorem nodup_rowCells (r : ℕ) : (rowCells r).Nodup :=
  (List.nodup_range 9).map_on fun x _ y _ h => by
    simpa using (Prod.mk.injEq .. ▸ h).2

theorem nodup_colCells (c : ℕ) : (colCells c).Nodup :=
  (List.nodup_range 9).map_on fun x _ y _ h => by
    simpa using (Prod.mk.injEq .. ▸ h).1

theorem nodup_boxCells {br bc : ℕ} (hbr : br < 3) (hbc : bc < 3) :
    (boxCells br bc).Nodup := by
  interval_cases br <;> interval_cases bc <;> decide

theorem length_rowCells (r : ℕ) : (rowCells r).length = 9 := by
  simp [rowCells]

theorem length_colCells (c : ℕ) : (colCells c).length = 9 := by
  simp [colCells]

theorem length_boxCells (br bc : ℕ) : (boxCells br bc).length = 9 := rfl

/-- A full, value-valid, duplicate-free board has every value 1..9 exactly
once in every row, every column and every box. -/
theorem units_exactly_once {g : Board} (hfull : fullBoard g)
    (hvv : validVals g) (hvalid : validBoard g) {v : ℕ}
    (h1 : 1 ≤ v) (h9 : v ≤ 9) :
    (∀ r < 9, (rowIndices g v r).length = 1) ∧
    (∀ c < 9, (colIndices g v c).length = 1) ∧
    (∀ br < 3, ∀ bc < 3, (boxIndices g v br bc).length = 1) := by
  have hvals : ∀ q : ℕ × ℕ, q.1 < 9 → q.2 < 9 →
      ∃ w, getCell g q.1 q.2 = some w ∧ 1 ≤ w ∧ w ≤ 9 := by
    intro q hq1 hq2
    cases hcell : getCell g q.1 q.2 with
    | none => exact absurd hcell (hfull q.1 hq1 q.2 hq2)
    | some w =>
      exact ⟨w, rfl, (hvv q.1 hq1 q.2 hq2 w hcell).1, (hvv q.1 hq1 q.2 hq2 w hcell).2⟩
  refine ⟨?_, ?_, ?_⟩
  · intro r hr
    rw [rowIndices_length_eq]
    apply unit_countP_one (nodup_rowCells r) (length_rowCells r) _ _ h1 h9
    · intro q hq
      obtain ⟨hq1, hq2⟩ := mem_rowCells.1 hq
      exact hvals q (hq1 ▸ hr) hq2
    · intro q hq q' hq' hne heq
      obtain ⟨hq1, hq2⟩ := mem_rowCells.1 hq
      obtain ⟨hq1', hq2'⟩ := mem_rowCells.1 hq'
      obtain ⟨w, hw, -, -⟩ := hvals q (hq1 ▸ hr) hq2
      refine hvalid q.1 (hq1 ▸ hr) q.2 hq2 ⟨by simp [hw], q'.1, hq1' ▸ hr,
        q'.2, hq2', ?_, heq.symm,
        Or.inl (by rw [hq1', hq1])⟩
      rw [Prod.mk.eta, Prod.mk.eta]
      exact fun h => hne h.symm
  · intro c hc
    rw [colIndices_length_eq]
    apply unit_countP_one (nodup_colCells c) (length_colCells c) _ _ h1 h9
    · intro q hq
      obtain ⟨hq1, hq2⟩ := mem_colCells.1 hq
      exact hvals q hq1 (hq2 ▸ hc)
    · intro q hq q' hq' hne heq
      obtain ⟨hq1, hq2⟩ := mem_colCells.1 hq
      obtain ⟨hq1', hq2'⟩ := mem_colCells.1 hq'
      obtain ⟨w, hw, -, -⟩ := hvals q hq1 (hq2 ▸ hc)
      refine hvalid q.1 hq1 q.2 (hq2 ▸ hc) ⟨by simp [hw], q'.1, hq1',
        q'.2, hq2' ▸ hc, ?_, heq.symm,
        Or.inr (Or.inl (by rw [hq2', hq2]))⟩
      rw [Prod.mk.eta, Prod.mk.eta]
      exact fun h => hne h.symm
  · intro br hbr bc hbc
    rw [boxIndices_length_eq]
    apply unit_countP_one (nodup_boxCells hbr hbc) (length_boxCells br bc) _ _
      h1 h9
    · intro q hq
      obtain ⟨hq1, hq2⟩ := mem_boxCells.1 hq
      exact hvals q (by omega) (by omega)
    · intro q hq q' hq' hne heq
      obtain ⟨hq1, hq2⟩ := mem_boxCells.1 hq
      obtain ⟨hq1', hq2'⟩ := mem_boxCells.1 hq'
      obtain ⟨w, hw, -, -⟩ := hvals q (by omega) (by omega)
      refine hvalid q.1 (by omega) q.2 (by omega) ⟨by simp [hw], q'.1,
        by omega, q'.2, by omega, ?_, heq.symm,
        Or.inr (Or.inr ⟨by rw [hq1', hq1], by rw [hq2', hq2]⟩)⟩
      rw [Prod.mk.eta, Prod.mk.eta]
      exact fun h => hne h.symm

/-! ### Membership in the conflict scan result -/

theorem mem_ite_nil {a : Type} {P : Prop} [Decidable P] {l : List a} {x : a} :
    (x ∈ if P then l else []) ↔ P ∧ x ∈ l := by
  split
  · simp [*]
  · simp [*]

theorem getCell_oob {b : Board} (hwf : boardWF b) {r c : ℕ}
    (h : 9 ≤ r ∨ 9 ≤ c) : getCell b r c = none := by
  rcases h with h | h
  · rw [getCell_eq, List.getElem?_eq_none (by rw [hwf.1]; omega : b.length ≤ r)]
    simp
  · rw [getCell, List.getD_eq_default]
    by_cases hr : r < 9
    · rw [length_row_of_WF hwf hr]; omega
    · rw [List.getD_eq_default _ _ (by rw [hwf.1]; omega : b.length ≤ r)]
      simp

theorem mem_rowIndices {b : Board} {num r c : ℕ} :
    c ∈ rowIndices b num r ↔ c < 9 ∧ getCell b r c = some num := by
  simp [rowIndices, List.mem_filter]

theorem mem_colIndices {b : Board} {num c r : ℕ} :
    r ∈ colIndices b num c ↔ r < 9 ∧ getCell b r c = some num := by
  simp [colIndices, List.mem_filter]

theorem mem_boxIndices {b : Board} {num br bc : ℕ} {p : ℕ × ℕ} :
    p ∈ boxIndices b num br bc ↔
      p.1 / 3 = br ∧ p.2 / 3 = bc ∧ getCell b p.1 p.2 = some num := by
  rw [boxIndices, List.mem_filter, mem_boxCells]
  simp [and_assoc]

theorem nodup_rowIndices (b : Board) (num r : ℕ) : (rowIndices b num r).Nodup :=
  (List.nodup_range 9).filter _

theorem nodup_colIndices (b : Board) (num c : ℕ) : (colIndices b num c).Nodup :=
  (List.nodup_range 9).filter _

theorem nodup_boxIndices (b : Board) (num : ℕ) {br bc : ℕ} (hbr : br < 3)
    (hbc : bc < 3) : (boxIndices b num br bc).Nodup :=
  (nodup_boxCells hbr hbc).filter _

theorem exists_other_of_one_lt {a : Type} {l : List a} (hnd : l.Nodup)
    {x : a} (hx : x ∈ l) (hlen : 1 < l.length) : ∃ y ∈ l, y ≠ x := by
  cases l with
  | nil => cases hx
  | cons z t =>
    cases t with
    | nil => simp at hlen
    | cons w t' =>
      by_cases hzx : z = x
      · subst hzx
        refine ⟨w, List.mem_cons_of_mem _ (List.mem_cons_self w t'), ?_⟩
        intro hwz
        exact (List.nodup_cons.1 hnd).1
          (hwz ▸ List.mem_cons_self w t')
      · exact ⟨z, List.mem_cons_self z _, hzx⟩

theorem one_lt_length_of_two {a : Type} {l : List a} {x y : a} (hx : x ∈ l)
    (hy : y ∈ l) (hne : x ≠ y) : 1 < l.length := by
  cases l with
  | nil => cases hx
  | cons z t =>
    cases t with
    | nil =>
      rw [List.mem_singleton] at hx hy
      exact absurd (hx.trans hy.symm) hne
    | cons w t' => simp

/-- Characterization of membership in `findAllConflicts`: on a board with
values in 1..9 the scan flags exactly the cells in conflict. -/
theorem mem_findAllConflicts {b : Board} (hwf : boardWF b) (hvv : validVals b)
    {r c : ℕ} : (r, c) ∈ findAllConflicts b ↔ conflictSpec b r c := by
  rw [findAllConflicts, List.mem_toFinset]
  simp only [List.mem_flatMap, List.mem_append, List.mem_range,
    List.mem_range'_1, mem_ite_nil, List.mem_map]
  constructor
  · rintro ⟨num, ⟨hnum1, hnum9⟩, h⟩
    rcases h with (⟨r₀, hr₀, hlen, c₀, hc₀, heq⟩ | ⟨c₀, hc₀, hlen, r₀, hr₀, heq⟩) |
      ⟨br, hbr, bc, hbc, hlen, hmem⟩
    · obtain ⟨rfl, rfl⟩ := Prod.mk.injEq .. ▸ heq
      obtain ⟨hc9, hget⟩ := mem_rowIndices.1 hc₀
      obtain ⟨c', hc', hne⟩ :=
        exists_other_of_one_lt (nodup_rowIndices b num r₀) hc₀ hlen
      obtain ⟨hc9', hget'⟩ := mem_rowIndices.1 hc'
      exact ⟨by simp [hget], r₀, hr₀, c', hc9',
        by simp [hne], by rw [hget, hget'], Or.inl rfl⟩
    · obtain ⟨rfl, rfl⟩ := Prod.mk.injEq .. ▸ heq
      obtain ⟨hr9, hget⟩ := mem_colIndices.1 hr₀
      obtain ⟨r', hr', hne⟩ :=
        exists_other_of_one_lt (nodup_colIndices b num c₀) hr₀ hlen
      obtain ⟨hr9', hget'⟩ := mem_colIndices.1 hr'
      exact ⟨by simp [hget], r', hr9', c₀, hc₀,
        by simp [hne], by rw [hget, hget'], Or.inr (Or.inl rfl)⟩
    · obtain ⟨hb1, hb2, hget⟩ := mem_boxIndices.1 hmem
      obtain ⟨p', hp', hne⟩ :=
        exists_other_of_one_lt (nodup_boxIndices b num hbr hbc) hmem hlen
      obtain ⟨hb1', hb2', hget'⟩ := mem_boxIndices.1 hp'
      refine ⟨by simp [hget], p'.1, by omega, p'.2, by omega,
        by rw [Prod.mk.eta]; exact hne, by rw [hget]; exact hget',
        Or.inr (Or.inr ⟨by omega, by omega⟩)⟩
  · rintro ⟨hne0, r', hr', c', hc', hnep, hvaleq, hrel⟩
    obtain ⟨v, hv⟩ : ∃ v, getCell b r c = some v := by
      cases hcell : getCell b r c with
      | none => exact absurd hcell hne0
      | some w => exact ⟨w, rfl⟩
    have hr9 : r < 9 := by
      by_contra h
      rw [getCell_oob hwf (Or.inl (by omega))] at hv
      cases hv
    have hc9 : c < 9 := by
      by_contra h
      rw [getCell_oob hwf (Or.inr (by omega))] at hv
      cases hv
    obtain ⟨hv1, hv9⟩ := hvv r hr9 c hc9 v hv
    rw [hv] at hvaleq
    refine ⟨v, ⟨hv1, by omega⟩, ?_⟩
    rcases hrel with rfl | rfl | ⟨hb1, hb2⟩
    · refine Or.inl (Or.inl ⟨r', hr9, ?_, c, mem_rowIndices.2 ⟨hc9, hv⟩, rfl⟩)
      exact one_lt_length_of_two (mem_rowIndices.2 ⟨hc', hvaleq⟩)
        (mem_rowIndices.2 ⟨hc9, hv⟩) (by simpa using hnep)
    · refine Or.inl (Or.inr ⟨c', hc9, ?_, r, mem_colIndices.2 ⟨hr9, hv⟩, rfl⟩)
      exact one_lt_length_of_two (mem_colIndices.2 ⟨hr', hvaleq⟩)
        (mem_colIndices.2 ⟨hr9, hv⟩) (by simpa using hnep)
    · refine Or.inr ⟨r / 3, by omega, c / 3, by omega, ?_, ?_⟩
      · exact one_lt_length_of_two
          (mem_boxIndices.2 ⟨by simpa using hb1, by simpa using hb2, hvaleq⟩)
          (mem_boxIndices.2 ⟨rfl, rfl, hv⟩) hnep
      · exact mem_boxIndices.2 ⟨rfl, rfl, hv⟩

/-! ### Claim theorems -/

/-- C1, counterexample: `isValidPlacement` on the board whose only filled
cell is (0,0) = 5, queried at (0,0) with value 5, returns false although 5
occurs at no cell other than (0,0) itself — the scan does not exclude the
target cell, so the claimed equivalence fails at this input. -/
theorem isValidPlacement_does_not_exclude_self :
    isValidPlacement singleFive 0 0 5 = false ∧
      ¬ occursElsewhere singleFive 0 0 5 := by
  constructor
  · decide
  · decide

/-- C1 (amended): for every board and in-range cell, `isValidPlacement`
returns false iff the value occurs somewhere in the same row, column or
box — the target cell included, so a cell holding the candidate value
itself makes the check fail. -/
theorem isValidPlacement_iff_occurs {b : Board} {row col : ℕ} (num : ℕ)
    (hrow : row < 9) (hcol : col < 9) :
    isValidPlacement b row col num = false ↔ occursInUnits b row col num :=
  isValidPlacement_false_iff num hrow hcol

/-- C1 witness: the amended equivalence at the concrete board of the
counterexample. -/
theorem isValidPlacement_iff_occurs_witness :
    (0 : ℕ) < 9 ∧
      (isValidPlacement singleFive 0 0 5 = false ↔
        occursInUnits singleFive 0 0 5) :=
  ⟨by decide, isValidPlacement_iff_occurs 5 (by decide) (by decide)⟩

/-- C2, counterexample: `generateSolution` succeeds on the all-ones board
(it is already full, so the base case fires immediately), yet row 0 holds
the value 1 nine times — the claim fails for grids that start invalid. -/
theorem generateSolution_succeeds_on_invalid_full_board :
    generateSolution allOnes (fun _ => 0) = some allOnes ∧
      (rowIndices allOnes 1 0).length ≠ 1 := by
  constructor
  · decide
  · decide

/-- C2 (amended): for every well-formed grid with values in 1..9 and no
duplicate in any unit, if `generateSolution` returns a grid then that grid
is fully filled and every row, column and box holds each value 1..9
exactly once. -/
theorem generateSolution_sound {b g : Board} {rands : ℕ → ℕ}
    (hwf : boardWF b) (hvv : validVals b) (hvalid : validBoard b)
    (h : generateSolution b rands = some g) :
    fullBoard g ∧ ∀ v, 1 ≤ v → v ≤ 9 →
      (∀ r < 9, (rowIndices g v r).length = 1) ∧
      (∀ c < 9, (colIndices g v c).length = 1) ∧
      (∀ br < 3, ∀ bc < 3, (boxIndices g v br bc).length = 1) := by
  rw [generateSolution] at h
  have hpair : genAux rands 82 b 0 = (some g, (genAux rands 82 b 0).2) := by
    rw [← h]
  obtain ⟨hwfg, hvvg, hvalidg, hfullg⟩ :=
    genAux_sound rands 82 b 0 g (genAux rands 82 b 0).2 hwf hvv hvalid hpair
  exact ⟨hfullg, fun v h1 h9 => units_exactly_once hfullg hvvg hvalidg h1 h9⟩

/-- C2 witness: generating from the solved grid with one hole returns the
solved grid, which carries the exactly-once property. -/
theorem generateSolution_sound_witness :
    boardWF nearlySolved ∧ validVals nearlySolved ∧ validBoard nearlySolved ∧
      (fullBoard solvedGrid ∧ ∀ v, 1 ≤ v → v ≤ 9 →
        (∀ r < 9, (rowIndices solvedGrid v r).length = 1) ∧
        (∀ c < 9, (colIndices solvedGrid v c).length = 1) ∧
        (∀ br < 3, ∀ bc < 3, (boxIndices solvedGrid v br bc).length = 1)) :=
  ⟨by decide, by decide, by decide,
    @generateSolution_sound nearlySolved solvedGrid (fun _ => 0) (by decide)
      (by decide) (by decide) (by decide)⟩

/-- C3: whenever `createPuzzle` terminates on a completely filled grid it
returns a puzzle with exactly `81 - removalsFor d` filled cells, with
removal counts 35 / 45 / 55 for Easy / Medium / Hard. -/
theorem createPuzzle_filled_count {solved s p : Board} {d : Difficulty}
    {rands : ℕ → ℕ} {fuel : ℕ} (hwf : boardWF solved)
    (hfull : fullBoard solved)
    (h : createPuzzle solved d rands fuel = some (s, p)) :
    filledCount p = 81 - removalsFor d ∧
      removalsFor Difficulty.Easy = 35 ∧
      removalsFor Difficulty.Medium = 45 ∧
      removalsFor Difficulty.Hard = 55 := by
  obtain ⟨-, -, hcount, -⟩ := createPuzzle_spec hwf h
  rw [filledCount_of_full hfull] at hcount
  have hle := removalsFor d
  refine ⟨by omega, rfl, rfl, rfl⟩

/-- C3 witness: carving the concrete solved grid at Hard difficulty with a
cell-sweeping random stream leaves 26 filled cells. -/
theorem createPuzzle_filled_count_witness :
    boardWF solvedGrid ∧ fullBoard solvedGrid ∧
      filledCount ((createPuzzle solvedGrid Difficulty.Hard wstream 60).getD
        (emptyBoard, emptyBoard)).2 = 81 - removalsFor Difficulty.Hard := by
  refine ⟨by decide, by decide, ?_⟩
  cases hcp : createPuzzle solvedGrid Difficulty.Hard wstream 60 with
  | none => exact absurd hcp (by decide)
  | some pr =>
    obtain ⟨s, p⟩ := pr
    have hthm := createPuzzle_filled_count (by decide) (by decide) hcp
    simpa using hthm.1

/-- C4: `checkSolution` is true iff every cell is filled and free of a
row/column/box duplicate; in particular any empty cell forces false. -/
theorem checkSolution_iff_solved (b : Board) :
    (checkSolution b = true ↔
      ∀ r < 9, ∀ c < 9, getCell b r c ≠ none ∧ ¬ conflictSpec b r c) ∧
    (∀ r < 9, ∀ c < 9, getCell b r c = none → checkSolution b = false) := by
  refine ⟨checkSolution_true_iff b, ?_⟩
  intro r hr c hc hcell
  cases hcs : checkSolution b with
  | false => rfl
  | true =>
    have := ((checkSolution_true_iff b).1 hcs r hr c hc).1
    exact absurd hcell this

/-- C4 witness: the empty board has an empty cell and fails the check. -/
theorem checkSolution_iff_solved_witness :
    getCell emptyBoard 0 0 = none ∧ checkSolution emptyBoard = false :=
  ⟨rfl, (checkSolution_iff_solved emptyBoard).2 0 (by decide) 0 (by decide) rfl⟩

/-- C5: `createPuzzle` hands back the solved board it was given completely
unchanged — the carving loop writes only into the deep copy, and the deep
copy reproduces the board exactly. -/
theorem createPuzzle_preserves_solved {solved s p : Board} {d : Difficulty}
    {rands : ℕ → ℕ} {fuel : ℕ} (hwf : boardWF solved)
    (h : createPuzzle solved d rands fuel = some (s, p)) :
    s = solved ∧ deepCopy solved = solved :=
  ⟨(createPuzzle_spec hwf h).1, deepCopy_eq solved⟩

/-- C5 witness: a concrete carving run returns the solved grid untouched. -/
theorem createPuzzle_preserves_solved_witness :
    boardWF solvedGrid ∧
      ((createPuzzle solvedGrid Difficulty.Easy wstream 60).getD
        (emptyBoard, emptyBoard)).1 = solvedGrid := by
  refine ⟨by decide, ?_⟩
  cases hcp : createPuzzle solvedGrid Difficulty.Easy wstream 60 with
  | none => exact absurd hcp (by decide)
  | some pr =>
    obtain ⟨s, p⟩ := pr
    have hthm := createPuzzle_preserves_solved (by decide) hcp
    simpa using hthm.1

/-- C6: `findAllConflicts` contains exactly the positions whose value
appears at another cell of a shared unit; on a duplicate-free grid it is
empty. -/
theorem findAllConflicts_iff {b : Board} (hwf : boardWF b)
    (hvv : validVals b) (r c : ℕ) :
    ((r, c) ∈ findAllConflicts b ↔ conflictSpec b r c) ∧
      (validBoard b → findAllConflicts b = ∅) := by
  refine ⟨mem_findAllConflicts hwf hvv, ?_⟩
  intro hvalid
  rw [Finset.eq_empty_iff_forall_not_mem]
  intro p hp
  rw [← Prod.mk.eta (p := p), mem_findAllConflicts hwf hvv] at hp
  have hp1 : p.1 < 9 := by
    by_contra h
    exact hp.1 (@getCell_oob b hwf p.1 p.2 (Or.inl (by omega)))
  have hp2 : p.2 < 9 := by
    by_contra h
    exact hp.1 (@getCell_oob b hwf p.1 p.2 (Or.inr (by omega)))
  exact hvalid p.1 hp1 p.2 hp2 hp

/-- C6 witness: the two 7s of row 0 at columns 0 and 3 are both flagged. -/
theorem findAllConflicts_iff_witness :
    boardWF conflictBoard ∧ validVals conflictBoard ∧
      (((0, 3) ∈ findAllConflicts conflictBoard ↔
        conflictSpec conflictBoard 0 3) ∧
        (validBoard conflictBoard → findAllConflicts conflictBoard = ∅)) :=
  ⟨by decide, by decide, findAllConflicts_iff (by decide) (by decide) 0 3⟩

/-- C7: a solution generated from a valid starting grid, carved at Easy
difficulty, has 46 filled cells, and refilling its empty cells from the
solution passes `checkSolution`. -/
theorem puzzle_roundtrip {start S s p : Board} {rands1 rands2 : ℕ → ℕ}
    {fuel : ℕ} (hwf : boardWF start) (hvv : validVals start)
    (hvalid : validBoard start)
    (hgen : generateSolution start rands1 = some S)
    (hcarve : createPuzzle S Difficulty.Easy rands2 fuel = some (s, p)) :
    filledCount p = 46 ∧ checkSolution (fillFrom p S) = true := by
  rw [generateSolution] at hgen
  have hpair : genAux rands1 82 start 0 = (some S, (genAux rands1 82 start 0).2) := by
    rw [← hgen]
  obtain ⟨hwfS, hvvS, hvalidS, hfullS⟩ :=
    genAux_sound rands1 82 start 0 S (genAux rands1 82 start 0).2 hwf hvv
      hvalid hpair
  obtain ⟨-, -, hcount, hext⟩ := createPuzzle_spec hwfS hcarve
  rw [filledCount_of_full hfullS] at hcount
  constructor
  · have : removalsFor Difficulty.Easy = 35 := rfl
    omega
  · have hfillS : ∀ r < 9, ∀ c < 9,
        getCell (fillFrom p S) r c = getCell S r c := fun r hr c hc =>
      getCell_fillFrom_of_extends hext hr hc
    rw [checkSolution_congr hfillS, checkSolution_true_iff]
    intro r hr c hc
    exact ⟨hfullS r hr c hc, hvalidS r hr c hc⟩

/-- C7 witness: the round trip on the concrete solved grid. -/
theorem puzzle_roundtrip_witness :
    generateSolution nearlySolved (fun _ => 0) = some solvedGrid ∧
      filledCount ((createPuzzle solvedGrid Difficulty.Easy wstream 60).getD
        (emptyBoard, emptyBoard)).2 = 46 ∧
      checkSolution (fillFrom
        ((createPuzzle solvedGrid Difficulty.Easy wstream 60).getD
          (emptyBoard, emptyBoard)).2 solvedGrid) = true := by
  have hgen : generateSolution nearlySolved (fun _ => 0) = some solvedGrid := by
    decide
  refine ⟨hgen, ?_⟩
  cases hcp : createPuzzle solvedGrid Difficulty.Easy wstream 60 with
  | none => exact absurd hcp (by decide)
  | some pr =>
    obtain ⟨s, p⟩ := pr
    obtain ⟨h1, h2⟩ := puzzle_roundtrip (by decide) (by decide) (by decide)
      hgen hcp
    exact ⟨by simpa using h1, by simpa using h2⟩

/-- C8: on the empty 9×9 grid the backtracking generator succeeds for every
behaviour of the random shuffle source (the fuel bound 82 exceeds any
possible recursion depth, so the embedded search always terminates); a
top-level failure is possible only on a starting grid that no full valid
grid extends. -/
theorem generateSolution_empty_succeeds :
    (∀ rands : ℕ → ℕ, (generateSolution emptyBoard rands).isSome = true) ∧
    (∀ (b : Board) (rands : ℕ → ℕ), boardWF b →
      generateSolution b rands = none → ¬ solvableFrom b) := by
  constructor
  · intro rands
    rw [generateSolution]
    apply genAux_complete
    · decide
    · decide
    · exact ⟨solvedGrid, by decide, by decide, by decide, by decide⟩
  · intro b rands hwf hnone hsolv
    have hcomp := genAux_complete rands 82 b 0 hwf
      (by have := emptyCount_le b; omega) hsolv
    rw [generateSolution] at hnone
    rw [hnone] at hcomp
    cases hcomp

/-- C8 witness: success on the empty grid for a concrete stream, and a
concrete contradictory grid on which the generator fails, shown thereby
unsolvable. -/
theorem generateSolution_empty_succeeds_witness :
    (generateSolution emptyBoard (fun _ => 0)).isSome = true ∧
      boardWF contradictoryBoard ∧
      generateSolution contradictoryBoard (fun _ => 0) = none ∧
      ¬ solvableFrom contradictoryBoard :=
  ⟨generateSolution_empty_succeeds.1 (fun _ => 0), by decide, by decide,
    generateSolution_empty_succeeds.2 contradictoryBoard (fun _ => 0)
      (by decide) (by decide)⟩

/-- C9: `isCellInConflict` is true iff the cell is filled and its value
recurs at another cell of its row, column or box — the box scan's skipping
of whole shared rows and columns is compensated by the row and column
scans — and it is always false on an empty cell. -/
theorem isCellInConflict_iff {b : Board} {row col : ℕ} (hrow : row < 9)
    (hcol : col < 9) :
    (isCellInConflict b row col = true ↔ conflictSpec b row col) ∧
      (getCell b row col = none → isCellInConflict b row col = false) := by
  refine ⟨isCellInConflict_true_iff hrow hcol, ?_⟩
  intro h
  rw [isCellInConflict, h]

/-- C9 witness: the conflict board at cell (0, 0). -/
theorem isCellInConflict_iff_witness :
    (0 : ℕ) < 9 ∧
      ((isCellInConflict conflictBoard 0 0 = true ↔
        conflictSpec conflictBoard 0 0) ∧
        (getCell conflictBoard 0 0 = none →
          isCellInConflict conflictBoard 0 0 = false)) :=
  ⟨by decide, isCellInConflict_iff (by decide) (by decide)⟩

/-- C10: the two conflict-detection entry points agree — a position is in
the conflict scan's result set iff the single-cell conflict test flags
it. -/
theorem findAllConflicts_agrees_isCellInConflict {b : Board}
    (hwf : boardWF b) (hvv : validVals b) {r c : ℕ} (hr : r < 9)
    (hc : c < 9) :
    ((r, c) ∈ findAllConflicts b ↔ isCellInConflict b r c = true) := by
  rw [mem_findAllConflicts hwf hvv, isCellInConflict_true_iff hr hc]

/-- C10 witness: agreement at cell (0, 0) of the conflict board. -/
theorem findAllConflicts_agrees_witness :
    boardWF conflictBoard ∧ validVals conflictBoard ∧
      ((0, 0) ∈ findAllConflicts conflictBoard ↔
        isCellInConflict conflictBoard 0 0 = true) :=
  ⟨by decide, by decide, findAllConflicts_agrees_isCellInConflict
    (by decide) (by decide) (by decide) (by decide)⟩

end Sudoku
